import Mathlib

set_option maxRecDepth 65536

/-!
# Verification of NumVis (src/numvis.py)

Shallow embedding of the `NumVis` class: the `hex` and `bin` chunk
formatters, the `_reversesplit` helper and the `_rawbin` helper, together
with proofs about the emitted lines.

Modelling conventions:
* The value being formatted is an arbitrary-precision integer.  All of the
  formatting claims concern non-negative values, so `hex`/`bin` take a `Nat`;
  the auto-growth loop is additionally modelled over `Int` (`pyShiftRight`)
  to reason about negative inputs.
* Python 2 integer arithmetic on non-negative operands (`//`-like `/`, `%`,
  `>>`) coincides with `Nat` division, modulo and right shift.  The line
  counter `c` in the printing loop can go negative (when more chunks than
  `full_size / line_width` are produced), and Python's `%` on a negative
  left operand with a positive modulus returns a value in `[0, modulus)`,
  which is `Int.emod`; the loop therefore carries the counter as an `Int`.
* A `print` call is modelled as appending an `Item` to the output list:
  the header line, a content line (its groups of symbols plus the two
  numbers of the `[high:low]` label), or a blank separator line.
* Symbols are digit values (`0..15` for hex, `0..1` for binary); the space
  separators inserted by `' '.join` are represented by the group structure
  `List (List Nat)` of a content line.
* The `while` loop growing `full_size` is modelled by the structurally
  recursive `growFuel`; fuel `v + 1` is provably sufficient for
  `line_width ≥ 1` (see `growFuel_exit`), which is the only regime the
  claims quantify over.  Likewise `chunksOf` and `toDigitsLE` use explicit
  fuel so that all definitions reduce in the kernel.
-/

namespace NumVis

/-- Little-endian base-`b` digit extraction with explicit fuel, mirroring
repeated divmod as performed by Python's `'%X' %` / `bin` formatting. -/
def toDigitsLE (b : Nat) : Nat → Nat → List Nat
  | 0, _ => []
  | fuel + 1, v => if v = 0 then [] else v % b :: toDigitsLE b fuel (v / b)

/-- Little-endian base-`b` digits of `v` (empty for `v = 0`). -/
def digitsLE (b v : Nat) : List Nat := toDigitsLE b v v

/-- Python `'%0nX' % v`: the most-significant-first hex digit values of `v`,
left-padded with zeros to at least `n` digits (`'0'` itself for `v = 0`). -/
def pyHexPad (v n : Nat) : List Nat :=
  let ds : List Nat := if v = 0 then [0] else (digitsLE 16 v).reverse
  List.replicate (n - ds.length) 0 ++ ds

/-- `NumVis._rawbin(number, padding)`: `bin(number)[2:]` left-padded with
zeros to `padding` characters (kept as-is when already longer). -/
def pyBinPad (v n : Nat) : List Nat :=
  let ds : List Nat := if v = 0 then [0] else (digitsLE 2 v).reverse
  List.replicate (n - ds.length) 0 ++ ds

/-- Left-to-right split of a list into chunks of `n` elements (the final
chunk keeps its natural, possibly shorter, length), with explicit fuel. -/
def chunksOfFuel (n : Nat) : Nat → List α → List (List α)
  | 0, _ => []
  | fuel + 1, l => if l.isEmpty then [] else l.take n :: chunksOfFuel n fuel (l.drop n)

/-- Left-to-right split into chunks of `n` elements; `l.length` is enough
fuel whenever `1 ≤ n`. -/
def chunksOf (n : Nat) (l : List α) : List (List α) := chunksOfFuel n l.length l

/-- `NumVis._reversesplit(binstring, size)`: reverse the string, cut it
left-to-right into chunks of `size`, re-reverse each chunk and the list of
chunks.  Net effect: grouping of `size` symbols counted from the right
(least-significant) end, with the partial group, if any, leftmost. -/
def reversesplit (l : List α) (size : Nat) : List (List α) :=
  (((chunksOf size l.reverse).map List.reverse).reverse)

/-- The `while (self.numerator >> full_size): full_size += line_width` loop
with explicit fuel. -/
def growFuel : Nat → Nat → Nat → Nat → Nat
  | 0, _, fs, _ => fs
  | fuel + 1, v, fs, lw => if v >>> fs = 0 then fs else growFuel fuel v (fs + lw) lw

/-- The grown `full_size`: fuel `v + 1` suffices whenever `1 ≤ lw`. -/
def grow (v fs lw : Nat) : Nat := growFuel (v + 1) v fs lw

/-- One printed line of output: the header, a content line (symbol groups
plus the `[high:low]` label values), or a blank separator. -/
inductive Item where
  | header (n : Nat)
  | line (groups : List (List Nat)) (high low : Int)
  | blank
deriving DecidableEq, Repr

/-- The shared printing loop of `hex` and `bin`: for each chunk, print the
grouped symbols with the `[c*lw-1 : c*lw-lw]` label, then a blank line when
`(c-1) % vgroup == 0`, then decrement `c`. -/
def renderLoop (lw hgroup vgroup : Nat) : List (List Nat) → Int → List Item
  | [], _ => []
  | chunk :: rest, c =>
    Item.line (reversesplit chunk hgroup) (c * lw - 1) (c * lw - lw)
      :: ((if Int.emod (c - 1) vgroup = 0 then [Item.blank] else [])
          ++ renderLoop lw hgroup vgroup rest (c - 1))

/-- `NumVis.hex(line_width, full_size, hgroup, vgroup)` on the non-negative
value `v`: grow `full_size`, validate `line_width % full_size == line_width`
(raising `ValueError`, modelled as `none`, otherwise), then print the header
and the chunked hex digit lines. -/
def hex (v lw fs hgroup vgroup : Nat) : Option (List Item) :=
  let fs' := grow v fs lw
  if lw % fs' = lw then
    some (Item.header (lw / 8)
      :: renderLoop lw hgroup vgroup
          (reversesplit (pyHexPad v (fs' / 4)) (lw / 4)) ((fs' / lw : Nat) : Int))
  else none

/-- `NumVis.bin(line_width, full_size, hgroup, vgroup)` on the non-negative
value `v`: same algorithm as `hex` with raw bits as symbols. -/
def bin (v lw fs hgroup vgroup : Nat) : Option (List Item) :=
  let fs' := grow v fs lw
  if lw % fs' = lw then
    some (Item.header lw
      :: renderLoop lw hgroup vgroup
          (reversesplit (pyBinPad v fs') lw) ((fs' / lw : Nat) : Int))
  else none

/-- The content lines of an output: `(groups, high, low)` per line, in
emission (top-to-bottom, most-significant-first) order. -/
def contentLines (out : List Item) : List (List (List Nat) × Int × Int) :=
  out.filterMap fun i =>
    match i with
    | Item.line g h l => some (g, h, l)
    | _ => none

/-- The symbols of one content line, group separators dropped. -/
def lineSymbols (x : List (List Nat) × Int × Int) : List Nat := x.1.flatten

/-- The symbols contributed by one output item (none for header/blank). -/
def itemSymbols : Item → List Nat
  | Item.line g _ _ => g.flatten
  | _ => []

/-- All hex/bin symbols of an output, in emission order, separators,
labels, headers and blank lines ignored. -/
def emittedSymbols (out : List Item) : List Nat := (out.map itemSymbols).flatten

/-- The `[high:low]` label values of the content lines, top to bottom. -/
def outLabels (out : List Item) : List (Int × Int) :=
  (contentLines out).map fun x => x.2

/-- For each content line (in order), whether the item directly following
it in the output is a blank separator line. -/
def followedByBlank : List Item → List Bool
  | [] => []
  | Item.line _ _ _ :: rest =>
    (match rest with
     | Item.blank :: _ => true
     | _ => false) :: followedByBlank rest
  | _ :: rest => followedByBlank rest

/-- Parse a most-significant-first list of hex digit values back to a
number. -/
def fromHexDigits (l : List Nat) : Nat := l.foldl (fun a d => 16 * a + d) 0

/-- The labels `[fs-1 : fs-lw]`, `[fs-lw-1 : fs-2*lw]`, …, `[lw-1 : 0]`:
the contiguous, non-overlapping, descending partition of `[0, fs-1]` into
`fs / lw` ranges of width `lw` claimed by the spec. -/
def labelPartition (fs lw : Nat) : List (Int × Int) :=
  (List.range (fs / lw)).map fun (i : Nat) =>
    ((fs : Int) - (i : Int) * (lw : Int) - 1, (fs : Int) - (i : Int) * (lw : Int) - (lw : Int))

/-- Python's `>>` on an arbitrary (possibly negative) integer: arithmetic
right shift, i.e. floor division by `2 ^ s`, which for a positive divisor
is Euclidean division. -/
def pyShiftRight (v : Int) (s : Nat) : Int := Int.ediv v (2 ^ s)

/-! ## Basic lemmas about the building blocks -/

theorem toDigitsLE_eq_digits {b : Nat} (hb : 1 < b) :
    ∀ fuel v, v ≤ fuel → toDigitsLE b fuel v = Nat.digits b v := by
  intro fuel
  induction fuel with
  | zero =>
    intro v hv
    have : v = 0 := Nat.le_zero.mp hv
    subst this
    simp [toDigitsLE]
  | succ n ih =>
    intro v hv
    by_cases h : v = 0
    · subst h; simp [toDigitsLE]
    · rw [toDigitsLE, if_neg h, Nat.digits_def' hb (Nat.pos_of_ne_zero h), ih]
      have : v / b < v := Nat.div_lt_self (Nat.pos_of_ne_zero h) hb
      omega

theorem digitsLE_eq_digits {b : Nat} (hb : 1 < b) (v : Nat) :
    digitsLE b v = Nat.digits b v :=
  toDigitsLE_eq_digits hb v v le_rfl

theorem fromHexDigits_replicate_zero (k : Nat) (t : List Nat) :
    fromHexDigits (List.replicate k 0 ++ t) = fromHexDigits t := by
  induction k with
  | zero => rfl
  | succ n ih => simpa [List.replicate_succ, fromHexDigits] using ih

theorem fromHexDigits_reverse_eq_ofDigits (L : List Nat) :
    fromHexDigits L.reverse = Nat.ofDigits 16 L := by
  rw [fromHexDigits, List.foldl_reverse]
  induction L with
  | nil => simp [Nat.ofDigits_nil]
  | cons d t ih => rw [List.foldr_cons, ih, Nat.ofDigits_cons]; ring

/-- Parsing the padded hex rendering recovers the value: the round-trip at
the level of the digit string. -/
theorem fromHexDigits_pyHexPad (v n : Nat) : fromHexDigits (pyHexPad v n) = v := by
  by_cases h : v = 0
  · subst h
    simp only [pyHexPad, if_pos rfl, fromHexDigits_replicate_zero]
    rfl
  · simp only [pyHexPad, if_neg h, fromHexDigits_replicate_zero,
      fromHexDigits_reverse_eq_ofDigits, digitsLE_eq_digits (by norm_num : (1:Nat) < 16)]
    exact Nat.ofDigits_digits 16 v

theorem chunksOfFuel_nil (n fuel : Nat) : chunksOfFuel n fuel ([] : List α) = [] := by
  cases fuel <;> simp [chunksOfFuel]

theorem flatten_chunksOfFuel {n : Nat} (hn : 1 ≤ n) :
    ∀ fuel (l : List α), l.length ≤ fuel → (chunksOfFuel n fuel l).flatten = l := by
  intro fuel
  induction fuel with
  | zero =>
    intro l hl
    have : l = [] := List.length_eq_zero.mp (Nat.le_zero.mp hl)
    subst this
    simp [chunksOfFuel]
  | succ m ih =>
    intro l hl
    by_cases h : l.isEmpty
    · rw [chunksOfFuel, if_pos h]
      simp [List.isEmpty_iff.mp h]
    · have hne : l ≠ [] := fun he => h (by simp [he])
      have hpos : 1 ≤ l.length := List.length_pos.mpr hne
      rw [chunksOfFuel, if_neg h, List.flatten_cons, ih _ (by simp; omega),
        List.take_append_drop]

theorem length_chunksOfFuel_mul {n : Nat} (hn : 1 ≤ n) :
    ∀ fuel (l : List α) m, l.length ≤ fuel → l.length = n * m →
      (chunksOfFuel n fuel l).length = m := by
  intro fuel
  induction fuel with
  | zero =>
    intro l m hl hm
    have h0 : l = [] := List.length_eq_zero.mp (Nat.le_zero.mp hl)
    subst h0
    simp only [chunksOfFuel_nil, List.length_nil]
    simp only [List.length_nil] at hm
    rcases Nat.mul_eq_zero.mp hm.symm with h1 | h2
    · omega
    · omega
  | succ f ih =>
    intro l m hl hm
    by_cases h : l.isEmpty
    · have h0 : l = [] := List.isEmpty_iff.mp h
      subst h0
      simp only [chunksOfFuel_nil, List.length_nil]
      simp only [List.length_nil] at hm
      rcases Nat.mul_eq_zero.mp hm.symm with h1 | h2
      · omega
      · omega
    · have hne : l ≠ [] := fun he => h (by simp [he])
      have hpos : 1 ≤ l.length := List.length_pos.mpr hne
      obtain ⟨m', rfl⟩ : ∃ m'', m = m'' + 1 := by
        refine ⟨m - 1, ?_⟩
        rcases m with _ | m''
        · rw [Nat.mul_zero] at hm; omega
        · omega
      rw [chunksOfFuel, if_neg h, List.length_cons,
        ih (l.drop n) m' (by rw [List.length_drop]; omega)
          (by rw [List.length_drop, hm, Nat.mul_succ, Nat.add_sub_cancel])]

theorem mem_chunksOfFuel {n : Nat} (hn : 1 ≤ n) :
    ∀ fuel (l : List α) g, g ∈ chunksOfFuel n fuel l → g.length ≤ n ∧ g ≠ [] := by
  intro fuel
  induction fuel with
  | zero => intro l g hg; simp [chunksOfFuel] at hg
  | succ f ih =>
    intro l g hg
    by_cases h : l.isEmpty
    · rw [chunksOfFuel, if_pos h] at hg; simp at hg
    · have hne : l ≠ [] := fun he => h (by simp [he])
      rw [chunksOfFuel, if_neg h, List.mem_cons] at hg
      rcases hg with rfl | hg'
      · refine ⟨by simp, ?_⟩
        rw [Ne, List.take_eq_nil_iff]
        push_neg
        exact ⟨by omega, hne⟩
      · exact ih _ g hg'

theorem dropLast_chunksOfFuel {n : Nat} (hn : 1 ≤ n) :
    ∀ fuel (l : List α) g, g ∈ (chunksOfFuel n fuel l).dropLast → g.length = n := by
  intro fuel
  induction fuel with
  | zero => intro l g hg; simp [chunksOfFuel] at hg
  | succ f ih =>
    intro l g hg
    by_cases h : l.isEmpty
    · rw [chunksOfFuel, if_pos h] at hg; simp at hg
    · rw [chunksOfFuel, if_neg h] at hg
      cases hrec : chunksOfFuel n f (l.drop n) with
      | nil => rw [hrec] at hg; simp at hg
      | cons a t =>
        rw [hrec, List.dropLast_cons₂, List.mem_cons] at hg
        rcases hg with rfl | hg'
        · have hdrop : l.drop n ≠ [] := by
            intro hd
            rw [hd, chunksOfFuel_nil] at hrec
            exact List.cons_ne_nil a t hrec.symm
          have hlen : n < l.length := by
            by_contra hc
            push_neg at hc
            exact hdrop (List.drop_eq_nil_of_le hc)
          simp [List.length_take]
          omega
        · exact ih _ g (by rw [hrec]; exact hg')

theorem flatten_chunksOf {n : Nat} (hn : 1 ≤ n) (l : List α) :
    (chunksOf n l).flatten = l :=
  flatten_chunksOfFuel hn _ l le_rfl

theorem length_chunksOf_mul {n : Nat} (hn : 1 ≤ n) (l : List α) (m : Nat)
    (hm : l.length = n * m) : (chunksOf n l).length = m :=
  length_chunksOfFuel_mul hn _ l m le_rfl hm

/-! ## Lemmas about `_reversesplit` -/

/-- Concatenating the groups of `_reversesplit` gives back the input. -/
theorem reversesplit_flatten {n : Nat} (hn : 1 ≤ n) (l : List α) :
    (reversesplit l n).flatten = l := by
  rw [reversesplit, List.flatten_reverse, List.map_map]
  simp only [Function.comp_def, List.reverse_reverse, List.map_id']
  rw [flatten_chunksOf hn, List.reverse_reverse]

theorem length_reversesplit (l : List α) (n : Nat) :
    (reversesplit l n).length = (chunksOf n l.reverse).length := by
  simp [reversesplit]

/-- Every group of `_reversesplit` is non-empty and at most `size` long. -/
theorem mem_reversesplit {n : Nat} (hn : 1 ≤ n) (l : List α) (g : List α)
    (hg : g ∈ reversesplit l n) : g.length ≤ n ∧ g ≠ [] := by
  rw [reversesplit, List.mem_reverse, List.mem_map] at hg
  obtain ⟨a, ha, rfl⟩ := hg
  simp only [chunksOf] at ha
  have := mem_chunksOfFuel hn _ _ a ha
  constructor
  · simpa using this.1
  · simpa using this.2

/-- All groups of `_reversesplit` except the leftmost have length exactly
`size`: the partial group, if any, sits at the most-significant end. -/
theorem tail_reversesplit {n : Nat} (hn : 1 ≤ n) (l : List α) (g : List α)
    (hg : g ∈ (reversesplit l n).tail) : g.length = n := by
  rw [reversesplit, List.tail_reverse, List.mem_reverse] at hg
  rw [← List.map_dropLast, List.mem_map] at hg
  obtain ⟨a, ha, rfl⟩ := hg
  simp only [chunksOf] at ha
  have := dropLast_chunksOfFuel hn _ _ a ha
  simpa using this

/-! ## Lemmas about the `full_size` growth loop -/

theorem growFuel_ge : ∀ fuel v fs lw, fs ≤ growFuel fuel v fs lw := by
  intro fuel
  induction fuel with
  | zero => intro v fs lw; simp [growFuel]
  | succ f ih =>
    intro v fs lw
    rw [growFuel]
    by_cases h : v >>> fs = 0
    · simp [h]
    · rw [if_neg h]
      exact le_trans (Nat.le_add_right fs lw) (ih v (fs + lw) lw)

theorem grow_ge (v fs lw : Nat) : fs ≤ grow v fs lw := growFuel_ge _ v fs lw

theorem growFuel_spec {lw : Nat} :
    ∀ fuel v fs, (∃ j, j ≤ fuel ∧ v >>> (fs + j * lw) = 0) →
      ∃ k, growFuel fuel v fs lw = fs + k * lw ∧ v >>> (fs + k * lw) = 0 ∧
        ∀ j, j < k → v >>> (fs + j * lw) ≠ 0 := by
  intro fuel
  induction fuel with
  | zero =>
    rintro v fs ⟨j, hj, hcond⟩
    have hj0 : j = 0 := Nat.le_zero.mp hj
    subst hj0
    exact ⟨0, by simp [growFuel], by simpa using hcond, fun j hj => absurd hj (by omega)⟩
  | succ f ih =>
    rintro v fs ⟨j, hj, hcond⟩
    by_cases h : v >>> fs = 0
    · exact ⟨0, by simp [growFuel, h], by simpa using h, fun j hj => absurd hj (by omega)⟩
    · rw [growFuel, if_neg h]
      have hj0 : j ≠ 0 := by
        intro he
        subst he
        exact h (by simpa using hcond)
      obtain ⟨j', rfl⟩ : ∃ j'', j = j'' + 1 := ⟨j - 1, by omega⟩
      obtain ⟨k, hk1, hk2, hk3⟩ := ih v (fs + lw)
        ⟨j', by omega, by rw [show fs + lw + j' * lw = fs + (j' + 1) * lw by ring]; exact hcond⟩
      refine ⟨k + 1, ?_, ?_, ?_⟩
      · rw [hk1]; ring
      · rw [show fs + (k + 1) * lw = fs + lw + k * lw by ring]; exact hk2
      · intro i hi
        cases i with
        | zero => simpa using h
        | succ i' =>
          rw [show fs + (i' + 1) * lw = fs + lw + i' * lw by ring]
          exact hk3 i' (by omega)

/-- The growth loop exits at the first element of the arithmetic sequence
`fs, fs + lw, fs + 2*lw, …` at which the value shifts to zero. -/
theorem grow_spec (v fs lw : Nat) (hlw : 1 ≤ lw) :
    ∃ k, grow v fs lw = fs + k * lw ∧ v >>> (fs + k * lw) = 0 ∧
      ∀ j, j < k → v >>> (fs + j * lw) ≠ 0 := by
  simp only [grow]
  apply growFuel_spec (v + 1) v fs
  refine ⟨v, by omega, ?_⟩
  rw [Nat.shiftRight_eq_div_pow]
  apply Nat.div_eq_of_lt
  calc v < 2 ^ v := Nat.lt_two_pow v
    _ ≤ 2 ^ (fs + v * lw) := by
        apply Nat.pow_le_pow_right (by omega)
        calc v = v * 1 := (Nat.mul_one v).symm
          _ ≤ v * lw := Nat.mul_le_mul_left v hlw
          _ ≤ fs + v * lw := Nat.le_add_left _ _

theorem grow_exit (v fs lw : Nat) (hlw : 1 ≤ lw) : v >>> grow v fs lw = 0 := by
  obtain ⟨k, hk1, hk2, _⟩ := grow_spec v fs lw hlw
  rw [hk1]; exact hk2

theorem grow_lt_pow (v fs lw : Nat) (hlw : 1 ≤ lw) : v < 2 ^ grow v fs lw := by
  have h := grow_exit v fs lw hlw
  rw [Nat.shiftRight_eq_div_pow] at h
  exact (Nat.div_eq_zero_iff (Nat.two_pow_pos _)).mp h

theorem grow_dvd (v fs lw : Nat) (hlw : 1 ≤ lw) (hdvd : lw ∣ fs) :
    lw ∣ grow v fs lw := by
  obtain ⟨k, hk1, _, _⟩ := grow_spec v fs lw hlw
  rw [hk1]
  exact Nat.dvd_add hdvd (Dvd.intro_left k rfl)

/-! ## Lemmas about the shared printing loop -/

theorem emittedSymbols_cons (x : Item) (L : List Item) :
    emittedSymbols (x :: L) = itemSymbols x ++ emittedSymbols L := by
  simp [emittedSymbols]

/-- The printing loop emits exactly the symbols of its chunks, regrouped by
`_reversesplit`; headers, labels and blank lines contribute none. -/
theorem emittedSymbols_renderLoop (lw hgroup vgroup : Nat) :
    ∀ (chunks : List (List Nat)) (c : Int),
      emittedSymbols (renderLoop lw hgroup vgroup chunks c)
        = (chunks.map fun ch => (reversesplit ch hgroup).flatten).flatten := by
  intro chunks
  induction chunks with
  | nil => intro c; rfl
  | cons ch rest ih =>
    intro c
    rw [renderLoop]
    by_cases h : Int.emod (c - 1) vgroup = 0 <;>
      simp [h, emittedSymbols_cons, itemSymbols, ih]

theorem outLabels_cons_line (g : List (List Nat)) (h l : Int) (L : List Item) :
    outLabels (Item.line g h l :: L) = (h, l) :: outLabels L := by
  simp [outLabels, contentLines]

theorem outLabels_cons_blank (L : List Item) :
    outLabels (Item.blank :: L) = outLabels L := by
  simp [outLabels, contentLines]

theorem outLabels_cons_header (n : Nat) (L : List Item) :
    outLabels (Item.header n :: L) = outLabels L := by
  simp [outLabels, contentLines]

/-- The labels of the printing loop: chunk `i` (0-based, top first) is
labelled `[(c-i)*lw - 1 : (c-i)*lw - lw]`. -/
theorem outLabels_renderLoop (lw hgroup vgroup : Nat) :
    ∀ (chunks : List (List Nat)) (c : Int),
      outLabels (renderLoop lw hgroup vgroup chunks c)
        = (List.range chunks.length).map
            (fun (i : Nat) => ((c - (i : Int)) * (lw : Int) - 1,
              (c - (i : Int)) * (lw : Int) - (lw : Int))) := by
  intro chunks
  induction chunks with
  | nil => intro c; rfl
  | cons ch rest ih =>
    intro c
    rw [renderLoop]
    have tail_eq : outLabels
        ((if Int.emod (c - 1) vgroup = 0 then [Item.blank] else [])
          ++ renderLoop lw hgroup vgroup rest (c - 1))
        = outLabels (renderLoop lw hgroup vgroup rest (c - 1)) := by
      by_cases h : Int.emod (c - 1) vgroup = 0
      · rw [if_pos h, List.singleton_append, outLabels_cons_blank]
      · rw [if_neg h, List.nil_append]
    rw [outLabels_cons_line, tail_eq, ih,
      List.length_cons, List.range_succ_eq_map, List.map_cons, List.map_map]
    congr 1
    · simp only [Nat.cast_zero, sub_zero]
    · apply List.map_congr_left
      intro a _
      simp only [Function.comp_def, Prod.mk.injEq]
      push_cast
      constructor <;> ring

/-- The number of content lines equals the number of chunks. -/
theorem contentLines_renderLoop_length (lw hgroup vgroup : Nat) :
    ∀ (chunks : List (List Nat)) (c : Int),
      (contentLines (renderLoop lw hgroup vgroup chunks c)).length = chunks.length := by
  intro chunks c
  have h := outLabels_renderLoop lw hgroup vgroup chunks c
  have : (outLabels (renderLoop lw hgroup vgroup chunks c)).length
      = (contentLines (renderLoop lw hgroup vgroup chunks c)).length := by
    simp [outLabels]
  rw [← this, h, List.length_map, List.length_range]

/-- A blank separator directly follows the line printed for chunk `i`
exactly when `(c - i - 1) mod vgroup = 0` (Python `%`, i.e. `Int.emod`). -/
theorem followedByBlank_renderLoop (lw hgroup vgroup : Nat) :
    ∀ (chunks : List (List Nat)) (c : Int),
      followedByBlank (renderLoop lw hgroup vgroup chunks c)
        = (List.range chunks.length).map
            (fun (i : Nat) => decide (Int.emod (c - (i : Int) - 1) (vgroup : Int) = 0)) := by
  intro chunks
  induction chunks with
  | nil => intro c; rfl
  | cons ch rest ih =>
    intro c
    rw [renderLoop, List.length_cons, List.range_succ_eq_map, List.map_cons,
      List.map_map]
    by_cases h : Int.emod (c - 1) vgroup = 0
    · rw [if_pos h, List.singleton_append]
      have head_eq :
          followedByBlank (Item.line (reversesplit ch hgroup) (c * lw - 1) (c * lw - lw)
              :: Item.blank :: renderLoop lw hgroup vgroup rest (c - 1))
            = true :: followedByBlank (renderLoop lw hgroup vgroup rest (c - 1)) := by
        simp [followedByBlank]
      rw [head_eq, ih (c - 1)]
      congr 1
      · simp [h]
      · apply List.map_congr_left
        intro a _
        have hc : c - 1 - (a : Int) - 1 = c - ((a : Int) + 1) - 1 := by ring
        simp [Function.comp_def, hc]
    · rw [if_neg h, List.nil_append]
      have head_eq :
          followedByBlank (Item.line (reversesplit ch hgroup) (c * lw - 1) (c * lw - lw)
              :: renderLoop lw hgroup vgroup rest (c - 1))
            = false :: followedByBlank (renderLoop lw hgroup vgroup rest (c - 1)) := by
        cases rest with
        | nil => simp [renderLoop, followedByBlank]
        | cons ch2 r2 => rw [renderLoop]; rfl
      rw [head_eq, ih (c - 1)]
      congr 1
      · simp [h]
      · apply List.map_congr_left
        intro a _
        have hc : c - 1 - (a : Int) - 1 = c - ((a : Int) + 1) - 1 := by ring
        simp [Function.comp_def, hc]

/-! ## Lengths of the padded symbol strings -/

theorem pyBinPad_length (v n : Nat) (hn : 1 ≤ n) (hv : v < 2 ^ n) :
    (pyBinPad v n).length = n := by
  by_cases h : v = 0
  · subst h
    simp [pyBinPad]
    omega
  · have hlen : (Nat.digits 2 v).length ≤ n := by
      rw [Nat.digits_len 2 v (by norm_num) h]
      have := (Nat.lt_pow_iff_log_lt (by norm_num : 1 < 2) h).mp hv
      omega
    simp only [pyBinPad, if_neg h, List.length_append, List.length_replicate,
      List.length_reverse, digitsLE_eq_digits (by norm_num : (1:Nat) < 2)]
    omega

theorem pyHexPad_length (v n : Nat) (hn : 1 ≤ n) (hv : v < 16 ^ n) :
    (pyHexPad v n).length = n := by
  by_cases h : v = 0
  · subst h
    simp [pyHexPad]
    omega
  · have hlen : (Nat.digits 16 v).length ≤ n := by
      rw [Nat.digits_len 16 v (by norm_num) h]
      have := (Nat.lt_pow_iff_log_lt (by norm_num : 1 < 16) h).mp hv
      omega
    simp only [pyHexPad, if_neg h, List.length_append, List.length_replicate,
      List.length_reverse, digitsLE_eq_digits (by norm_num : (1:Nat) < 16)]
    omega

/-! ## Plumbing: unfolding `hex` and `bin` -/

/-- For a positive (post-growth) `full_size`, the source's check
`line_width % full_size == line_width` passes exactly when
`line_width < full_size`. -/
theorem validation_iff {lw fs' : Nat} (hfs : 1 ≤ fs') :
    lw % fs' = lw ↔ lw < fs' := by
  constructor
  · intro h
    by_contra hc
    push_neg at hc
    have := Nat.mod_lt lw (show 0 < fs' by omega)
    omega
  · exact Nat.mod_eq_of_lt

theorem hex_eq_some (hgroup vgroup : Nat) {v lw fs : Nat}
    (hval : lw % grow v fs lw = lw) :
    hex v lw fs hgroup vgroup = some (Item.header (lw / 8)
      :: renderLoop lw hgroup vgroup
          (reversesplit (pyHexPad v (grow v fs lw / 4)) (lw / 4))
          ((grow v fs lw / lw : Nat) : Int)) := by
  simp only [hex]
  rw [if_pos hval]

theorem bin_eq_some (hgroup vgroup : Nat) {v lw fs : Nat}
    (hval : lw % grow v fs lw = lw) :
    bin v lw fs hgroup vgroup = some (Item.header lw
      :: renderLoop lw hgroup vgroup
          (reversesplit (pyBinPad v (grow v fs lw)) lw)
          ((grow v fs lw / lw : Nat) : Int)) := by
  simp only [bin]
  rw [if_pos hval]

theorem hex_isSome_val {v lw fs hgroup vgroup : Nat}
    (h : (hex v lw fs hgroup vgroup).isSome = true) :
    lw % grow v fs lw = lw := by
  by_contra hc
  have hnone : hex v lw fs hgroup vgroup = none := by
    simp only [hex]
    rw [if_neg hc]
  rw [hnone] at h
  simp at h

theorem bin_isSome_val {v lw fs hgroup vgroup : Nat}
    (h : (bin v lw fs hgroup vgroup).isSome = true) :
    lw % grow v fs lw = lw := by
  by_contra hc
  have hnone : bin v lw fs hgroup vgroup = none := by
    simp only [bin]
    rw [if_neg hc]
  rw [hnone] at h
  simp at h

theorem followedByBlank_cons_header (n : Nat) (L : List Item) :
    followedByBlank (Item.header n :: L) = followedByBlank L := rfl

theorem emod_natCast_natCast (k n : Nat) :
    Int.emod (k : Int) (n : Int) = ((k % n : Nat) : Int) := by
  rw [show Int.emod (k : Int) (n : Int) = (k : Int) % (n : Int) from rfl]
  exact (Int.ofNat_emod k n).symm

/-! ## The claims -/

/-- **C1.** For every non-negative arbitrary-precision integer `v`, `hex`
with the default parameters (`lineWidth=72, fullSize=576, horizontalGroup=8,
verticalGroup=8`) succeeds, and concatenating all hex symbols of the emitted
content lines in top-to-bottom order — ignoring group-separating spaces,
blank separator lines, the header line and the `[high:low]` labels — yields
a hexadecimal string that parses back to exactly `v`. -/
theorem numvis_C1 (v : Nat) :
    (hex v 72 576 8 8).isSome = true ∧
    fromHexDigits (emittedSymbols ((hex v 72 576 8 8).getD [])) = v := by
  have hge : 576 ≤ grow v 576 72 := grow_ge v 576 72
  have hval : 72 % grow v 576 72 = 72 := Nat.mod_eq_of_lt (by omega)
  have hx := hex_eq_some 8 8 hval
  rw [hx]
  refine ⟨rfl, ?_⟩
  rw [Option.getD_some, emittedSymbols_cons]
  have hhead : itemSymbols (Item.header (72 / 8)) = [] := rfl
  rw [hhead, List.nil_append, emittedSymbols_renderLoop]
  have hmap : ((reversesplit (pyHexPad v (grow v 576 72 / 4)) (72 / 4)).map
        fun ch => (reversesplit ch 8).flatten)
      = (reversesplit (pyHexPad v (grow v 576 72 / 4)) (72 / 4)).map id := by
    apply List.map_congr_left
    intro a _
    rw [reversesplit_flatten (by norm_num)]
    rfl
  rw [hmap, List.map_id, reversesplit_flatten (by norm_num : (1:Nat) ≤ 72 / 4),
    fromHexDigits_pyHexPad]

/-- **C2** is wrong about the code (the code is buggy, see the spec's §9):
the intended contract "raise iff the grown `fullSize` is not divisible by
`lineWidth`" — also what the source's own error message says — is violated
in both directions.  With `lineWidth=10, fullSize=15` the grown size 15 is
not divisible by 10, yet no error is raised; with `lineWidth=fullSize=72`
the size is divisible, yet the call raises. -/
theorem numvis_C2_code_bug :
    (grow 0 15 10 % 10 ≠ 0 ∧ (hex 0 10 15 1 1).isSome = true) ∧
    (grow 0 72 72 % 72 = 0 ∧ hex 0 72 72 8 8 = none) := by
  decide

/-- **C3.** For every non-negative value and positive `lineWidth`, the
`fullSize` actually used after auto-growth is the smallest value of the
sequence `fullSize, fullSize+lineWidth, fullSize+2*lineWidth, …` that is
at least `bitLength v` (`Nat.size v`); moreover, when the initial
`fullSize` is a multiple of `lineWidth`, so is the grown one. -/
theorem numvis_C3 (v fs lw : Nat) (hlw : 1 ≤ lw) :
    (∃ k, grow v fs lw = fs + k * lw) ∧
    Nat.size v ≤ grow v fs lw ∧
    (∀ j, Nat.size v ≤ fs + j * lw → grow v fs lw ≤ fs + j * lw) ∧
    (lw ∣ fs → lw ∣ grow v fs lw) := by
  obtain ⟨k, hk1, hk2, hk3⟩ := grow_spec v fs lw hlw
  refine ⟨⟨k, hk1⟩, ?_, ?_, grow_dvd v fs lw hlw⟩
  · rw [Nat.size_le]
    exact grow_lt_pow v fs lw hlw
  · intro j hj
    have hcond : v >>> (fs + j * lw) = 0 := by
      rw [Nat.shiftRight_eq_div_pow]
      exact Nat.div_eq_of_lt (Nat.size_le.mp hj)
    have hkj : k ≤ j := by
      by_contra hc
      push_neg at hc
      exact hk3 j hc hcond
    rw [hk1]
    have : k * lw ≤ j * lw := Nat.mul_le_mul_right lw hkj
    omega

theorem numvis_C3_witness :
    (∃ k, grow 5 2 3 = 2 + k * 3) ∧
    Nat.size 5 ≤ grow 5 2 3 ∧
    (∀ j, Nat.size 5 ≤ 2 + j * 3 → grow 5 2 3 ≤ 2 + j * 3) ∧
    (3 ∣ 2 → 3 ∣ grow 5 2 3) :=
  numvis_C3 5 2 3 (by norm_num)

/-- **C10.** The `full_size` growth loop terminates for every non-negative
value and positive `lineWidth` (reaching a state where the shifted value is
zero), while for a strictly negative value the loop guard
`value >> full_size` (arithmetic shift, `pyShiftRight`) is non-zero at
every shift amount, so the loop never exits: `hex`/`bin` on a negative
value neither return nor raise. -/
theorem numvis_C10 :
    (∀ (v fs lw : Nat), 1 ≤ lw →
      ∃ n, grow v fs lw = fs + n * lw ∧ v >>> grow v fs lw = 0) ∧
    (∀ v : Int, v < 0 → ∀ s : Nat, pyShiftRight v s ≠ 0) := by
  constructor
  · intro v fs lw hlw
    obtain ⟨k, hk1, hk2, _⟩ := grow_spec v fs lw hlw
    refine ⟨k, hk1, ?_⟩
    rw [hk1]
    exact hk2
  · intro v hv s hcontra
    have hpow : ((2:Int) ^ s) ≠ 0 := by positivity
    have hdm := Int.ediv_add_emod v (2 ^ s)
    rw [show v / (2 ^ s : Int) = pyShiftRight v s from rfl, hcontra,
      mul_zero, zero_add] at hdm
    have hnn : 0 ≤ Int.emod v (2 ^ s) := Int.emod_nonneg v hpow
    omega

theorem numvis_C10_witness :
    (∃ n, grow 5 0 1 = 0 + n * 1 ∧ 5 >>> grow 5 0 1 = 0) ∧
    pyShiftRight (-1) 3 ≠ 0 :=
  ⟨numvis_C10.1 5 0 1 (by norm_num), numvis_C10.2 (-1) (by norm_num) 3⟩

/-- **C4, counterexample.** The claim fails for `hex` when `lineWidth` is
not a multiple of 4: with `lineWidth=6, fullSize=12` the call passes the
source's validation, yet three content lines are emitted instead of
`fullSize/lineWidth = 2`, the extra bottom line carrying the out-of-range
label `[-1:-6]` — so the labels are not the claimed descending partition of
`[0, fullSize-1]`. -/
theorem numvis_C4_counterexample :
    (hex 0 6 12 1 1).isSome = true ∧ (6 : Nat) ∣ 12 ∧
    outLabels ((hex 0 6 12 1 1).getD []) = [(11, 6), (5, 0), (-1, -6)] ∧
    outLabels ((hex 0 6 12 1 1).getD []) ≠ labelPartition (grow 0 12 6) 6 := by
  decide

/-- **C4, amended.** For every `bin` call with positive parameters whose
(auto-grown) `fullSize` is a multiple of `lineWidth` and which passes the
source's validation — and likewise for `hex` provided additionally that
`lineWidth` is divisible by 4 (so that hex symbols fill lines exactly) —
the `[high:low]` labels of the content lines, top to bottom, are
`[fullSize-1 : fullSize-lineWidth]` down to `[lineWidth-1 : 0]`: the
contiguous, non-overlapping, descending partition of `[0, fullSize-1]`
with `high = low + lineWidth - 1` on every line (`labelPartition`). -/
theorem numvis_C4_amended :
    (∀ v lw fs hgroup vgroup : Nat, 1 ≤ lw → 1 ≤ fs → 1 ≤ hgroup → 1 ≤ vgroup →
      lw ∣ fs → (bin v lw fs hgroup vgroup).isSome = true →
      outLabels ((bin v lw fs hgroup vgroup).getD [])
        = labelPartition (grow v fs lw) lw) ∧
    (∀ v lw fs hgroup vgroup : Nat, 1 ≤ lw → 1 ≤ fs → 1 ≤ hgroup → 1 ≤ vgroup →
      4 ∣ lw → lw ∣ fs → (hex v lw fs hgroup vgroup).isSome = true →
      outLabels ((hex v lw fs hgroup vgroup).getD [])
        = labelPartition (grow v fs lw) lw) := by
  constructor
  · intro v lw fs hgroup vgroup hlw hfs hhg hvg hdvd hsome
    have hval := bin_isSome_val hsome
    have hfs' : 1 ≤ grow v fs lw := le_trans hfs (grow_ge v fs lw)
    obtain ⟨t, ht⟩ := grow_dvd v fs lw hlw hdvd
    have hlenstr : (pyBinPad v (grow v fs lw)).length = grow v fs lw :=
      pyBinPad_length v _ hfs' (grow_lt_pow v fs lw hlw)
    have hFlw : grow v fs lw / lw = t := by
      rw [ht]
      exact Nat.mul_div_cancel_left t (by omega)
    have hchunks : (reversesplit (pyBinPad v (grow v fs lw)) lw).length
        = grow v fs lw / lw := by
      rw [length_reversesplit,
        length_chunksOf_mul hlw _ t (by rw [List.length_reverse, hlenstr, ht]), hFlw]
    rw [bin_eq_some hgroup vgroup hval, Option.getD_some, outLabels_cons_header,
      outLabels_renderLoop, hchunks, labelPartition]
    apply List.map_congr_left
    intro a _
    have hNl : ((grow v fs lw / lw : Nat) : Int) * (lw : Int) = ((grow v fs lw : Nat) : Int) := by
      rw [hFlw, ht]
      push_cast
      ring
    simp only [Prod.mk.injEq]
    constructor <;> linear_combination hNl
  · intro v lw fs hgroup vgroup hlw hfs hhg hvg h4 hdvd hsome
    have hval := hex_isSome_val hsome
    have hfs' : 1 ≤ grow v fs lw := le_trans hfs (grow_ge v fs lw)
    obtain ⟨m, hm⟩ := h4
    have hm1 : 1 ≤ m := by omega
    obtain ⟨t, ht⟩ := grow_dvd v fs lw hlw hdvd
    have ht1 : 1 ≤ t := by
      rcases t with _ | t'
      · rw [Nat.mul_zero] at ht; omega
      · omega
    have h4F : 4 ∣ grow v fs lw := ⟨m * t, by rw [ht, hm]; ring⟩
    have hF4 : grow v fs lw / 4 = m * t := by
      rw [ht, hm, Nat.mul_assoc]
      exact Nat.mul_div_cancel_left (m * t) (by norm_num)
    have hlw4 : lw / 4 = m := by
      rw [hm]
      exact Nat.mul_div_cancel_left m (by norm_num)
    have hFlw : grow v fs lw / lw = t := by
      rw [ht]
      exact Nat.mul_div_cancel_left t (by omega)
    have h216 : (16 : Nat) ^ (grow v fs lw / 4) = 2 ^ grow v fs lw := by
      have h44 : 4 * (grow v fs lw / 4) = grow v fs lw := Nat.mul_div_cancel' h4F
      calc (16 : Nat) ^ (grow v fs lw / 4) = (2 ^ 4) ^ (grow v fs lw / 4) := by norm_num
        _ = 2 ^ (4 * (grow v fs lw / 4)) := by rw [pow_mul]
        _ = 2 ^ grow v fs lw := by rw [h44]
    have hpow : v < 16 ^ (grow v fs lw / 4) := by
      rw [h216]
      exact grow_lt_pow v fs lw hlw
    have hstr : (pyHexPad v (grow v fs lw / 4)).length = grow v fs lw / 4 :=
      pyHexPad_length v _ (by rw [hF4]; exact Nat.mul_pos hm1 ht1) hpow
    have hchunks : (reversesplit (pyHexPad v (grow v fs lw / 4)) (lw / 4)).length
        = grow v fs lw / lw := by
      rw [length_reversesplit,
        length_chunksOf_mul (by rw [hlw4]; exact hm1) _ t
          (by rw [List.length_reverse, hstr, hF4, hlw4]), hFlw]
    rw [hex_eq_some hgroup vgroup hval, Option.getD_some, outLabels_cons_header,
      outLabels_renderLoop, hchunks, labelPartition]
    apply List.map_congr_left
    intro a _
    have hNl : ((grow v fs lw / lw : Nat) : Int) * (lw : Int) = ((grow v fs lw : Nat) : Int) := by
      rw [hFlw, ht]
      push_cast
      ring
    simp only [Prod.mk.injEq]
    constructor <;> linear_combination hNl

theorem numvis_C4_witness :
    outLabels ((bin 0 16 32 4 8).getD []) = labelPartition (grow 0 32 16) 16 ∧
    outLabels ((hex 0 72 144 8 8).getD []) = labelPartition (grow 0 144 72) 72 :=
  ⟨numvis_C4_amended.1 0 16 32 4 8 (by norm_num) (by norm_num) (by norm_num)
      (by norm_num) (by norm_num) (by decide),
   numvis_C4_amended.2 0 72 144 8 8 (by norm_num) (by norm_num) (by norm_num)
      (by norm_num) (by norm_num) (by norm_num) (by decide)⟩

/-- **C5, counterexample.** The claim fails for `hex` when `lineWidth` is
not a multiple of 4: with `lineWidth=6, fullSize=12, verticalGroup=2` the
call passes validation and emits three content lines; the claim predicts
blanks after the lines whose 0-based index from the bottom (2, 1, 0 for the
three lines) is even, i.e. the pattern `[true, false, true]`, but the code
emits `[false, true, false]` because its counter runs from
`fullSize/lineWidth = 2` rather than from the actual line count. -/
theorem numvis_C5_counterexample :
    (hex 0 6 12 1 2).isSome = true ∧ (6 : Nat) ∣ 12 ∧
    (contentLines ((hex 0 6 12 1 2).getD [])).length = 3 ∧
    followedByBlank ((hex 0 6 12 1 2).getD []) = [false, true, false] ∧
    followedByBlank ((hex 0 6 12 1 2).getD [])
      ≠ (List.range 3).map (fun (i : Nat) => decide ((3 - 1 - i) % 2 = 0)) := by
  decide

/-- **C5, amended.** For every `bin` call with positive parameters whose
(auto-grown) `fullSize` is a multiple of `lineWidth` and which passes the
source's validation — and likewise for `hex` provided additionally that
`lineWidth` is divisible by 4 — a blank separator line is emitted
immediately after a content line if and only if that line's 0-based index
counting from the bottom (least-significant) line is a multiple of
`verticalGroup`. -/
theorem numvis_C5_amended :
    (∀ v lw fs hgroup vgroup : Nat, 1 ≤ lw → 1 ≤ fs → 1 ≤ hgroup → 1 ≤ vgroup →
      lw ∣ fs → (bin v lw fs hgroup vgroup).isSome = true →
      followedByBlank ((bin v lw fs hgroup vgroup).getD [])
        = (List.range (grow v fs lw / lw)).map
            (fun (i : Nat) => decide ((grow v fs lw / lw - 1 - i) % vgroup = 0))) ∧
    (∀ v lw fs hgroup vgroup : Nat, 1 ≤ lw → 1 ≤ fs → 1 ≤ hgroup → 1 ≤ vgroup →
      4 ∣ lw → lw ∣ fs → (hex v lw fs hgroup vgroup).isSome = true →
      followedByBlank ((hex v lw fs hgroup vgroup).getD [])
        = (List.range (grow v fs lw / lw)).map
            (fun (i : Nat) => decide ((grow v fs lw / lw - 1 - i) % vgroup = 0))) := by
  constructor
  · intro v lw fs hgroup vgroup hlw hfs hhg hvg hdvd hsome
    have hval := bin_isSome_val hsome
    have hfs' : 1 ≤ grow v fs lw := le_trans hfs (grow_ge v fs lw)
    obtain ⟨t, ht⟩ := grow_dvd v fs lw hlw hdvd
    have hlenstr : (pyBinPad v (grow v fs lw)).length = grow v fs lw :=
      pyBinPad_length v _ hfs' (grow_lt_pow v fs lw hlw)
    have hFlw : grow v fs lw / lw = t := by
      rw [ht]
      exact Nat.mul_div_cancel_left t (by omega)
    have hchunks : (reversesplit (pyBinPad v (grow v fs lw)) lw).length
        = grow v fs lw / lw := by
      rw [length_reversesplit,
        length_chunksOf_mul hlw _ t (by rw [List.length_reverse, hlenstr, ht]), hFlw]
    rw [bin_eq_some hgroup vgroup hval, Option.getD_some, followedByBlank_cons_header,
      followedByBlank_renderLoop, hchunks]
    apply List.map_congr_left
    intro a ha
    have haN : a < grow v fs lw / lw := List.mem_range.mp ha
    rw [decide_eq_decide]
    have hcast : ((grow v fs lw / lw : Nat) : Int) - (a : Int) - 1
        = ((grow v fs lw / lw - 1 - a : Nat) : Int) := by omega
    rw [hcast, emod_natCast_natCast]
    exact Int.natCast_eq_zero
  · intro v lw fs hgroup vgroup hlw hfs hhg hvg h4 hdvd hsome
    have hval := hex_isSome_val hsome
    have hfs' : 1 ≤ grow v fs lw := le_trans hfs (grow_ge v fs lw)
    obtain ⟨m, hm⟩ := h4
    have hm1 : 1 ≤ m := by omega
    obtain ⟨t, ht⟩ := grow_dvd v fs lw hlw hdvd
    have ht1 : 1 ≤ t := by
      rcases t with _ | t'
      · rw [Nat.mul_zero] at ht; omega
      · omega
    have h4F : 4 ∣ grow v fs lw := ⟨m * t, by rw [ht, hm]; ring⟩
    have hF4 : grow v fs lw / 4 = m * t := by
      rw [ht, hm, Nat.mul_assoc]
      exact Nat.mul_div_cancel_left (m * t) (by norm_num)
    have hlw4 : lw / 4 = m := by
      rw [hm]
      exact Nat.mul_div_cancel_left m (by norm_num)
    have hFlw : grow v fs lw / lw = t := by
      rw [ht]
      exact Nat.mul_div_cancel_left t (by omega)
    have h216 : (16 : Nat) ^ (grow v fs lw / 4) = 2 ^ grow v fs lw := by
      have h44 : 4 * (grow v fs lw / 4) = grow v fs lw := Nat.mul_div_cancel' h4F
      calc (16 : Nat) ^ (grow v fs lw / 4) = (2 ^ 4) ^ (grow v fs lw / 4) := by norm_num
        _ = 2 ^ (4 * (grow v fs lw / 4)) := by rw [pow_mul]
        _ = 2 ^ grow v fs lw := by rw [h44]
    have hpow : v < 16 ^ (grow v fs lw / 4) := by
      rw [h216]
      exact grow_lt_pow v fs lw hlw
    have hstr : (pyHexPad v (grow v fs lw / 4)).length = grow v fs lw / 4 :=
      pyHexPad_length v _ (by rw [hF4]; exact Nat.mul_pos hm1 ht1) hpow
    have hchunks : (reversesplit (pyHexPad v (grow v fs lw / 4)) (lw / 4)).length
        = grow v fs lw / lw := by
      rw [length_reversesplit,
        length_chunksOf_mul (by rw [hlw4]; exact hm1) _ t
          (by rw [List.length_reverse, hstr, hF4, hlw4]), hFlw]
    rw [hex_eq_some hgroup vgroup hval, Option.getD_some, followedByBlank_cons_header,
      followedByBlank_renderLoop, hchunks]
    apply List.map_congr_left
    intro a ha
    have haN : a < grow v fs lw / lw := List.mem_range.mp ha
    rw [decide_eq_decide]
    have hcast : ((grow v fs lw / lw : Nat) : Int) - (a : Int) - 1
        = ((grow v fs lw / lw - 1 - a : Nat) : Int) := by omega
    rw [hcast, emod_natCast_natCast]
    exact Int.natCast_eq_zero

theorem numvis_C5_witness :
    followedByBlank ((bin 0 16 32 4 8).getD [])
      = (List.range (grow 0 32 16 / 16)).map
          (fun (i : Nat) => decide ((grow 0 32 16 / 16 - 1 - i) % 8 = 0)) ∧
    followedByBlank ((hex 0 72 144 8 8).getD [])
      = (List.range (grow 0 144 72 / 72)).map
          (fun (i : Nat) => decide ((grow 0 144 72 / 72 - 1 - i) % 8 = 0)) :=
  ⟨numvis_C5_amended.1 0 16 32 4 8 (by norm_num) (by norm_num) (by norm_num)
      (by norm_num) (by norm_num) (by decide),
   numvis_C5_amended.2 0 72 144 8 8 (by norm_num) (by norm_num) (by norm_num)
      (by norm_num) (by norm_num) (by norm_num) (by decide)⟩

/-- **C6, counterexample.** The grouping is not the claimed left-to-right
split with the rightmost partial group: the very first content line of
`hex 0` with the default parameters has groups of sizes `[2, 8, 8]` (the
partial group of 2 symbols leftmost), while splitting the same 18 symbols
left-to-right into runs of 8 with the final partial group keeping its
natural size (`chunksOf`) would give sizes `[8, 8, 2]`. -/
theorem numvis_C6_counterexample :
    ((contentLines ((hex 0 72 576 8 8).getD [])).headD ([], 0, 0)).1
      = [[0, 0], [0, 0, 0, 0, 0, 0, 0, 0], [0, 0, 0, 0, 0, 0, 0, 0]] ∧
    ((contentLines ((hex 0 72 576 8 8).getD [])).headD ([], 0, 0)).1
      ≠ chunksOf 8 (((contentLines ((hex 0 72 576 8 8).getD [])).headD ([], 0, 0)).1.flatten) := by
  decide

/-- **C6, amended.** Each emitted chunk is grouped by `_reversesplit`:
the symbols are subdivided counting from the right (least-significant) end
into groups of `horizontalGroup` symbols, the partial group, if any,
keeping its natural size at the left (most-significant) end.  Concretely,
for `1 ≤ horizontalGroup` the groups concatenate back to the chunk, every
group after the first has exactly `horizontalGroup` symbols, and every
group is non-empty with at most `horizontalGroup` symbols. -/
theorem numvis_C6_amended (l : List Nat) (hgroup : Nat) (h : 1 ≤ hgroup) :
    (reversesplit l hgroup).flatten = l ∧
    (∀ g ∈ (reversesplit l hgroup).tail, g.length = hgroup) ∧
    (∀ g ∈ reversesplit l hgroup, g.length ≤ hgroup ∧ g ≠ []) :=
  ⟨reversesplit_flatten h l, fun g hg => tail_reversesplit h l g hg,
   fun g hg => mem_reversesplit h l g hg⟩

theorem numvis_C6_witness :
    (reversesplit [1, 2, 3, 4, 5] 2).flatten = [1, 2, 3, 4, 5] ∧
    (∀ g ∈ (reversesplit [1, 2, 3, 4, 5] 2).tail, g.length = 2) ∧
    (∀ g ∈ reversesplit [1, 2, 3, 4, 5] 2, g.length ≤ 2 ∧ g ≠ []) :=
  numvis_C6_amended [1, 2, 3, 4, 5] 2 (by norm_num)

/-- **C7.** `hex 0xf5fa` with the default parameters emits exactly 8
content lines; every line but the last is all zeros, and the last line
contains the contiguous symbol run `0000F5FA` (as its least-significant
group) with bit-range label `[0071:0000]`. -/
theorem numvis_C7 :
    (hex 62970 72 576 8 8).isSome = true ∧
    (contentLines ((hex 62970 72 576 8 8).getD [])).length = 8 ∧
    (∀ x ∈ (contentLines ((hex 62970 72 576 8 8).getD [])).dropLast,
      ∀ d ∈ lineSymbols x, d = 0) ∧
    [0, 0, 0, 0, 15, 5, 15, 10]
      ∈ ((contentLines ((hex 62970 72 576 8 8).getD [])).getLastD ([], 0, 0)).1 ∧
    ((contentLines ((hex 62970 72 576 8 8).getD [])).getLastD ([], 0, 0)).2 = (71, 0) := by
  decide

/-- **C8.** `bin 0xf5fa` with the default parameters emits exactly 8
content lines of 16 bit symbols each; the last (least-significant) line is
`1111 0101 1111 1010` with bit-range label `[0015:0000]`. -/
theorem numvis_C8 :
    (bin 62970 16 128 4 8).isSome = true ∧
    (contentLines ((bin 62970 16 128 4 8).getD [])).length = 8 ∧
    (∀ x ∈ contentLines ((bin 62970 16 128 4 8).getD []), (lineSymbols x).length = 16) ∧
    ((contentLines ((bin 62970 16 128 4 8).getD [])).getLastD ([], 0, 0)).1
      = [[1, 1, 1, 1], [0, 1, 0, 1], [1, 1, 1, 1], [1, 0, 1, 0]] ∧
    ((contentLines ((bin 62970 16 128 4 8).getD [])).getLastD ([], 0, 0)).2 = (15, 0) := by
  decide

/-- **C9, counterexample.** The source's check does not raise exactly when
`lineWidth ≠ fullSize`: with the defaults (`lineWidth=72`,
grown `fullSize=576`, unequal) the claim predicts an error, yet the call
succeeds; conversely in the single-line case `lineWidth = fullSize = 72`
the claim predicts success, yet the call raises. -/
theorem numvis_C9_counterexample :
    ((72 : Nat) ≠ grow 0 576 72 ∧ (hex 0 72 576 8 8).isSome = true) ∧
    ((72 : Nat) = grow 0 72 72 ∧ hex 0 72 72 8 8 = none) := by
  decide

/-- **C9, amended.** The source's divisibility check
(`line_width % full_size != line_width`) raises exactly when
`lineWidth ≥ fullSize` after auto-growth: it passes precisely in the
multi-line case `lineWidth < fullSize` and always fails when
`lineWidth ≥ fullSize`, including the single-line case
`lineWidth = fullSize`. -/
theorem numvis_C9_amended (v lw fs hgroup vgroup : Nat) (hlw : 1 ≤ lw) (hfs : 1 ≤ fs) :
    (hex v lw fs hgroup vgroup = none ↔ grow v fs lw ≤ lw) ∧
    (bin v lw fs hgroup vgroup = none ↔ grow v fs lw ≤ lw) := by
  have hfs' : 1 ≤ grow v fs lw := le_trans hfs (grow_ge v fs lw)
  constructor
  · constructor
    · intro h
      by_contra hc
      push_neg at hc
      have hval : lw % grow v fs lw = lw := Nat.mod_eq_of_lt hc
      rw [hex_eq_some hgroup vgroup hval] at h
      simp at h
    · intro h
      have hval : ¬ lw % grow v fs lw = lw := by
        rw [validation_iff hfs']
        omega
      simp only [hex]
      rw [if_neg hval]
  · constructor
    · intro h
      by_contra hc
      push_neg at hc
      have hval : lw % grow v fs lw = lw := Nat.mod_eq_of_lt hc
      rw [bin_eq_some hgroup vgroup hval] at h
      simp at h
    · intro h
      have hval : ¬ lw % grow v fs lw = lw := by
        rw [validation_iff hfs']
        omega
      simp only [bin]
      rw [if_neg hval]

theorem numvis_C9_witness :
    ((hex 0 72 576 8 8 = none ↔ grow 0 576 72 ≤ 72) ∧
     (bin 0 72 576 8 8 = none ↔ grow 0 576 72 ≤ 72)) ∧
    ((hex 0 72 72 8 8 = none ↔ grow 0 72 72 ≤ 72) ∧
     (bin 0 72 72 8 8 = none ↔ grow 0 72 72 ≤ 72)) :=
  ⟨numvis_C9_amended 0 72 576 8 8 (by norm_num) (by norm_num),
   numvis_C9_amended 0 72 72 8 8 (by norm_num) (by norm_num)⟩

end NumVis
